import Mathlib

/-!
Verification development for a collection of terminal wagering games
(blackjack, coin flip, tic-tac-toe). The definitions below are shallow
embeddings of the Python source files (blackjack.py, coinflip.py,
tictactoe.py): Python ints become Int (or Nat where the source value is a
count), the mutable game objects become explicit state passing, and the
only float arithmetic in the source (int(bet * multiplier) with multiplier
1.0 or 1.5) is modelled by exact integer arithmetic with truncating
division, which agrees with Python float truncation on the bet ranges the
game produces.
-/

namespace MatBlack

/-! ## Cards and hands (blackjack.py: Card, Hand) -/

/-- Card ranks, as in blackjack.py (A, 2..10, J, Q, K). -/
inductive Rank where
  | ace | two | three | four | five | six | seven | eight | nine | ten
  | jack | queen | king
deriving DecidableEq, Repr

/-- Card suits, as in blackjack.py. -/
inductive Suit where
  | hearts | diamonds | clubs | spades
deriving DecidableEq, Repr

/-- A playing card (blackjack.py: class Card). -/
structure Card where
  suit : Suit
  rank : Rank
deriving DecidableEq, Repr

/-- Card.value from blackjack.py: J/Q/K are 10, A is nominally 11,
numeric ranks are face value. -/
def cardValue (r : Rank) : Nat :=
  match r with
  | .ace => 11
  | .two => 2 | .three => 3 | .four => 4 | .five => 5 | .six => 6
  | .seven => 7 | .eight => 8 | .nine => 9 | .ten => 10
  | .jack => 10 | .queen => 10 | .king => 10

/-- A hand is the ordered list of cards held (blackjack.py: class Hand). -/
abbrev Hand := List Card

/-- The accumulation loop of Hand.get_value: total with every ace counted
as 11. -/
def sumHigh : Hand → Nat
  | [] => 0
  | c :: t => cardValue c.rank + sumHigh t

/-- The ace counter of Hand.get_value's accumulation loop. -/
def aceCount : Hand → Nat
  | [] => 0
  | c :: t => (if c.rank = Rank.ace then 1 else 0) + aceCount t

/-- The while loop of Hand.get_value: while value > 21 and aces remain,
demote one ace (subtract 10). Structural recursion on the ace count. -/
def reduceAces : Nat → Nat → Nat
  | v, 0 => v
  | v, a + 1 => if 21 < v then reduceAces (v - 10) a else v

/-- Hand.get_value from blackjack.py: sum with aces high, then the
ace-demotion while loop. -/
def handValue (h : Hand) : Nat :=
  reduceAces (sumHigh h) (aceCount h)

/-- The low (fully demoted) value of a rank: an ace contributes 1,
every other rank its nominal value. Used as the termination measure of
the dealer loop. -/
def lowValue (r : Rank) : Nat :=
  match r with
  | .ace => 1
  | r => cardValue r

/-- Sum of a hand with every ace counted low. -/
def lowSum : Hand → Nat
  | [] => 0
  | c :: t => lowValue c.rank + lowSum t

/-! ## Player, wagers, settlement (blackjack.py: Player and the
settlement branches of BlackjackGame.play_round) -/

/-- The wager-relevant state of blackjack.py's Player: the balance and the
currently escrowed bet. -/
structure Player where
  balance : Int
  bet : Int
deriving DecidableEq, Repr

/-- Player.place_bet: fails (returning False, state unchanged) iff
amount > balance; otherwise records the bet and deducts it from the
balance. There is no check that the amount is positive. -/
def placeBet (p : Player) (amount : Int) : Bool × Player :=
  if p.balance < amount then (false, p)
  else (true, { balance := p.balance - amount, bet := amount })

/-- The two win multipliers the source ever uses: 1.0 for a standard win
and 1.5 for a natural (blackjack) win. -/
inductive Mult where
  | standard
  | natural
deriving DecidableEq, Repr

/-- Python's int(bet * multiplier): exact for multiplier 1.0; for 1.5 it
truncates bet * 1.5 toward zero, which for the Int values in range is
(3 * bet) / 2 with Int truncating division. -/
def winnings (bet : Int) (m : Mult) : Int :=
  match m with
  | .standard => bet
  | .natural => Int.tdiv (3 * bet) 2

/-- Player.win_bet: add winnings plus the returned stake to the balance
and clear the bet. -/
def winBet (p : Player) (m : Mult) : Player :=
  { balance := p.balance + winnings p.bet m + p.bet, bet := 0 }

/-- Player.lose_bet: forfeit the escrowed bet. -/
def loseBet (p : Player) : Player :=
  { balance := p.balance, bet := 0 }

/-- The push branch of BlackjackGame.play_round: the escrowed bet is
credited back and cleared. -/
def pushBet (p : Player) : Player :=
  { balance := p.balance + p.bet, bet := 0 }

/-- The validation performed by the bet prompt loops (get_bet_amount in
all three game files): the returned amount is positive and within the
balance. -/
def betInputValid (balance amount : Int) : Prop :=
  0 < amount ∧ amount ≤ balance

instance (balance amount : Int) : Decidable (betInputValid balance amount) := by
  unfold betInputValid
  infer_instance

/-! ## The shoe and the dealer loop (blackjack.py: Deck, dealer_turn) -/

/-- The shoe state: the remaining cards (dealt from the back of the list,
as Python's list.pop does) and the index of the next reshuffle to use.
The random shuffles of Deck.reset are supplied externally as a sequence
sh : Nat → List Card; in the source every reshuffle is a full 52-card
deck. -/
structure Deck where
  cards : List Card
  idx : Nat
deriving Repr

/-- A placeholder card returned only if a reshuffle yields an empty list,
which never happens in the source (Deck.reset always produces 52 cards);
the Python code would raise there. -/
def fallbackCard : Card := { suit := Suit.spades, rank := Rank.two }

/-- Deck.deal_card: if the shoe is empty, reset it (take the next
externally supplied shuffle), then pop one card from the back. -/
def dealCard (sh : Nat → List Card) (d : Deck) : Card × Deck :=
  let cs := if d.cards.isEmpty then sh d.idx else d.cards
  let i := if d.cards.isEmpty then d.idx + 1 else d.idx
  match cs.getLast? with
  | some c => (c, { cards := cs.dropLast, idx := i })
  | none => (fallbackCard, { cards := [], idx := i })

/-- Every rank contributes at least 1 even fully demoted. -/
theorem one_le_lowValue (r : Rank) : 1 ≤ lowValue r := by
  cases r <;> decide

/-- Appending one card adds its low value to the low sum. -/
theorem lowSum_append (h : Hand) (c : Card) :
    lowSum (h ++ [c]) = lowSum h + lowValue c.rank := by
  induction h with
  | nil => simp [lowSum]
  | cons x t ih => simp [lowSum, ih]; omega

/-- The ace-demotion loop removes at most 10 per ace. -/
theorem reduceAces_ge (a v : Nat) : v - 10 * a ≤ reduceAces v a := by
  induction a generalizing v with
  | zero => simp [reduceAces]
  | succ a ih =>
    simp only [reduceAces]
    split
    · have := ih (v - 10)
      omega
    · omega

/-- Splitting a card's nominal value into its low value plus the ace
surcharge. -/
theorem cardValue_eq_lowValue (r : Rank) :
    cardValue r = lowValue r + (if r = Rank.ace then 10 else 0) := by
  cases r <;> decide

/-- The aces-high sum is the low sum plus 10 per ace. -/
theorem sumHigh_eq_lowSum (h : Hand) :
    sumHigh h = lowSum h + 10 * aceCount h := by
  induction h with
  | nil => simp [sumHigh, lowSum, aceCount]
  | cons c t ih =>
    simp only [sumHigh, lowSum, aceCount, ih, cardValue_eq_lowValue c.rank]
    split <;> omega

/-- The hand value never drops below the fully demoted sum. -/
theorem lowSum_le_handValue (h : Hand) : lowSum h ≤ handValue h := by
  have := reduceAces_ge (aceCount h) (sumHigh h)
  have := sumHigh_eq_lowSum h
  unfold handValue
  omega

/-- BlackjackGame.dealer_turn: draw while the hand value is below 17.
Termination: each drawn card raises the fully demoted sum by at least 1,
and the hand value is at least that sum. -/
def dealerTurn (sh : Nat → List Card) (h : Hand) (d : Deck) : Hand × Deck :=
  if _hlt : handValue h < 17 then
    dealerTurn sh (h ++ [(dealCard sh d).1]) (dealCard sh d).2
  else (h, d)
termination_by 17 - lowSum h
decreasing_by
  simp_wf
  have h1 := lowSum_le_handValue h
  have h2 := lowSum_append h (dealCard sh d).1
  have h3 := one_le_lowValue ((dealCard sh d).1).rank
  omega

/-! ## The 4x4 board (tictactoe.py) -/

/-- A board mark: X (the player) or O (the AI). -/
inductive Mark where
  | X
  | O
deriving DecidableEq, Repr

/-- A board cell holds a mark or is empty (the Python blank string). The
board is indexed 0..15 as in the source list. -/
abbrev Board := Nat → Option Mark

/-- The four cell indices of one candidate line. -/
structure Line4 where
  a : Nat
  b : Nat
  c : Nat
  d : Nat
deriving DecidableEq, Repr

/-- The ten candidate lines in the exact order check_winner scans them:
the four rows, then the four columns, then the main diagonal, then the
anti-diagonal. -/
def lines : List Line4 :=
  [⟨0, 1, 2, 3⟩, ⟨4, 5, 6, 7⟩, ⟨8, 9, 10, 11⟩, ⟨12, 13, 14, 15⟩,
   ⟨0, 4, 8, 12⟩, ⟨1, 5, 9, 13⟩, ⟨2, 6, 10, 14⟩, ⟨3, 7, 11, 15⟩,
   ⟨0, 5, 10, 15⟩, ⟨3, 6, 9, 12⟩]

/-- One comparison chain of check_winner: the line's four cells are equal
and non-empty; if so, the shared mark. -/
def checkLine (bd : Board) (l : Line4) : Option Mark :=
  match bd l.a with
  | some m =>
      if bd l.b = some m ∧ bd l.c = some m ∧ bd l.d = some m then some m
      else none
  | none => none

/-- Result type of check_winner: a winning mark, a tie, or None
(game continues). -/
inductive CWRes where
  | mark (m : Mark)
  | tie
  | cont
deriving DecidableEq, Repr

/-- TicTacToeGame.check_winner: scan the ten lines in order and return the
first complete line's mark; otherwise tie exactly when move_count is 16;
otherwise None. -/
def checkWinner (bd : Board) (mc : Nat) : CWRes :=
  match lines.findSome? (checkLine bd) with
  | some m => CWRes.mark m
  | none => if mc = 16 then CWRes.tie else CWRes.cont

/-- The line l is completely filled with mark m. -/
def lineAll (bd : Board) (l : Line4) (m : Mark) : Prop :=
  bd l.a = some m ∧ bd l.b = some m ∧ bd l.c = some m ∧ bd l.d = some m

instance (bd : Board) (l : Line4) (m : Mark) : Decidable (lineAll bd l m) := by
  unfold lineAll
  infer_instance

/-- Some full row, column or diagonal consists entirely of mark m. -/
def hasLine (bd : Board) (m : Mark) : Prop :=
  ∃ l ∈ lines, lineAll bd l m

instance (bd : Board) (m : Mark) : Decidable (hasLine bd m) := by
  unfold hasLine
  infer_instance

/-- Number of empty cells among the sixteen board positions. -/
def emptyCount (bd : Board) : Nat :=
  (List.range 16).countP (fun i => decide (bd i = none))

/-- A line comparison chain succeeds exactly when the line is complete
with that mark. -/
theorem checkLine_eq_some_iff (bd : Board) (l : Line4) (m : Mark) :
    checkLine bd l = some m ↔ lineAll bd l m := by
  cases h : bd l.a with
  | none =>
    have e : checkLine bd l = none := by
      unfold checkLine
      rw [h]
    rw [e]
    unfold lineAll
    simp [h]
  | some m₀ =>
    have e : checkLine bd l =
        if bd l.b = some m₀ ∧ bd l.c = some m₀ ∧ bd l.d = some m₀ then some m₀
        else none := by
      unfold checkLine
      rw [h]
    rw [e]
    unfold lineAll
    by_cases hcond : bd l.b = some m₀ ∧ bd l.c = some m₀ ∧ bd l.d = some m₀
    · rw [if_pos hcond]
      constructor
      · intro hsome
        obtain rfl : m₀ = m := by simpa using hsome
        exact ⟨h, hcond.1, hcond.2.1, hcond.2.2⟩
      · rintro ⟨ha, -, -, -⟩
        rw [h] at ha
        exact ha
    · rw [if_neg hcond]
      constructor
      · intro hnone
        exact absurd hnone (by simp)
      · rintro ⟨ha, hb1, hc1, hd1⟩
        obtain rfl : m₀ = m := by
          rw [h] at ha
          simpa using ha
        exact absurd ⟨hb1, hc1, hd1⟩ hcond

/-- check_winner returns a mark only when that mark has a complete line. -/
theorem hasLine_of_checkWinner_mark (bd : Board) (mc : Nat) (m : Mark)
    (h : checkWinner bd mc = CWRes.mark m) : hasLine bd m := by
  cases hfs : lines.findSome? (checkLine bd) with
  | none =>
    have e : checkWinner bd mc = if mc = 16 then CWRes.tie else CWRes.cont := by
      unfold checkWinner
      rw [hfs]
    rw [e] at h
    split at h <;> exact absurd h (by simp)
  | some m₀ =>
    have e : checkWinner bd mc = CWRes.mark m₀ := by
      unfold checkWinner
      rw [hfs]
    rw [e] at h
    obtain rfl : m₀ = m := by simpa using h
    obtain ⟨l, hl, hcl⟩ := List.exists_of_findSome?_eq_some hfs
    exact ⟨l, hl, (checkLine_eq_some_iff bd l m₀).mp hcl⟩

/-- The line scan comes back empty exactly when no mark has a complete
line. -/
theorem findSome?_lines_eq_none_iff (bd : Board) :
    lines.findSome? (checkLine bd) = none ↔ ∀ m, ¬ hasLine bd m := by
  rw [List.findSome?_eq_none_iff]
  constructor
  · rintro h m ⟨l, hl, hall⟩
    have := h l hl
    rw [(checkLine_eq_some_iff bd l m).mpr hall] at this
    exact Option.noConfusion this
  · intro h l hl
    cases hcl : checkLine bd l with
    | none => rfl
    | some m =>
      exact absurd ⟨l, hl, (checkLine_eq_some_iff bd l m).mp hcl⟩ (h m)

/-- When at most one mark has a complete line, check_winner returns mark m
exactly when m has a complete line. -/
theorem checkWinner_mark_iff (bd : Board) (mc : Nat) (m : Mark)
    (hone : ¬ (hasLine bd Mark.X ∧ hasLine bd Mark.O)) :
    checkWinner bd mc = CWRes.mark m ↔ hasLine bd m := by
  constructor
  · exact hasLine_of_checkWinner_mark bd mc m
  · intro hm
    cases hfs : lines.findSome? (checkLine bd) with
    | none =>
      exact absurd hm ((findSome?_lines_eq_none_iff bd).mp hfs m)
    | some m₀ =>
      have hres : checkWinner bd mc = CWRes.mark m₀ := by
        unfold checkWinner
        rw [hfs]
      have hm₀ : hasLine bd m₀ := hasLine_of_checkWinner_mark bd mc m₀ hres
      obtain rfl : m₀ = m := by
        by_contra hne
        have hxo : (m₀ = Mark.X ∧ m = Mark.O) ∨ (m₀ = Mark.O ∧ m = Mark.X) := by
          cases m₀ <;> cases m <;> simp_all
        rcases hxo with ⟨rfl, rfl⟩ | ⟨rfl, rfl⟩
        · exact hone ⟨hm₀, hm⟩
        · exact hone ⟨hm, hm₀⟩
      exact hres

/-- check_winner returns tie exactly when no line is complete and
move_count is 16. -/
theorem checkWinner_tie_iff (bd : Board) (mc : Nat) :
    checkWinner bd mc = CWRes.tie ↔ (∀ m, ¬ hasLine bd m) ∧ mc = 16 := by
  cases hfs : lines.findSome? (checkLine bd) with
  | none =>
    have e : checkWinner bd mc = if mc = 16 then CWRes.tie else CWRes.cont := by
      unfold checkWinner
      rw [hfs]
    have hnl := (findSome?_lines_eq_none_iff bd).mp hfs
    rw [e]
    by_cases hmc : mc = 16 <;> simp [hmc, hnl]
  | some m₀ =>
    have e : checkWinner bd mc = CWRes.mark m₀ := by
      unfold checkWinner
      rw [hfs]
    have hm₀ : hasLine bd m₀ := by
      obtain ⟨l, hl, hcl⟩ := List.exists_of_findSome?_eq_some hfs
      exact ⟨l, hl, (checkLine_eq_some_iff bd l m₀).mp hcl⟩
    rw [e]
    simp only [reduceCtorEq, false_iff, not_and]
    intro h
    exact absurd hm₀ (h m₀)

/-- check_winner returns None exactly when no line is complete and
move_count is not 16. -/
theorem checkWinner_cont_iff (bd : Board) (mc : Nat) :
    checkWinner bd mc = CWRes.cont ↔ (∀ m, ¬ hasLine bd m) ∧ mc ≠ 16 := by
  cases hfs : lines.findSome? (checkLine bd) with
  | none =>
    have e : checkWinner bd mc = if mc = 16 then CWRes.tie else CWRes.cont := by
      unfold checkWinner
      rw [hfs]
    have hnl := (findSome?_lines_eq_none_iff bd).mp hfs
    rw [e]
    by_cases hmc : mc = 16 <;> simp [hmc, hnl]
  | some m₀ =>
    have e : checkWinner bd mc = CWRes.mark m₀ := by
      unfold checkWinner
      rw [hfs]
    have hm₀ : hasLine bd m₀ := by
      obtain ⟨l, hl, hcl⟩ := List.exists_of_findSome?_eq_some hfs
      exact ⟨l, hl, (checkLine_eq_some_iff bd l m₀).mp hcl⟩
    rw [e]
    simp only [reduceCtorEq, false_iff, not_and]
    intro h
    exact absurd hm₀ (h m₀)

/-! ## The AI move chooser (tictactoe.py: get_ai_move) -/

/-- One trial-and-undo scan of get_ai_move: walk the cell indices in
order; at each empty cell, place sym, ask check_winner, undo the mark,
and stop with position i+1 when the trial made sym the winner. The board
is threaded through explicitly, exactly as the Python code mutates and
restores it. -/
def scanTrial (sym : Mark) (mc : Nat) : Board → List Nat → Option Nat × Board
  | bd, [] => (none, bd)
  | bd, i :: rest =>
    if bd i = none then
      let b1 := Function.update bd i (some sym)
      if checkWinner b1 mc = CWRes.mark sym then
        (some (i + 1), Function.update b1 i none)
      else scanTrial sym mc (Function.update b1 i none) rest
    else scanTrial sym mc bd rest

/-- The four innermost positions tried at the third priority tier
(1-indexed, as in the source). -/
def centerPositions : List Nat := [6, 7, 10, 11]

/-- The four corner positions tried at the fourth priority tier. -/
def cornerPositions : List Nat := [1, 4, 13, 16]

/-- TicTacToeGame.get_ai_move. random.choice over the candidate pools is
supplied externally as pick; the caller of the spec theorems assumes only
that pick selects an element of a non-empty list, which random.choice
does. Returns the chosen 1-indexed position together with the board as
the function leaves it. -/
def getAiMove (pick : List Nat → Nat) (bd : Board) (mc : Nat) : Nat × Board :=
  match (scanTrial Mark.O mc bd (List.range 16)).1 with
  | some p => (p, (scanTrial Mark.O mc bd (List.range 16)).2)
  | none =>
    match (scanTrial Mark.X mc (scanTrial Mark.O mc bd (List.range 16)).2
        (List.range 16)).1 with
    | some p => (p, (scanTrial Mark.X mc
        (scanTrial Mark.O mc bd (List.range 16)).2 (List.range 16)).2)
    | none =>
      let b2 := (scanTrial Mark.X mc
        (scanTrial Mark.O mc bd (List.range 16)).2 (List.range 16)).2
      if centerPositions.filter (fun q => decide (b2 (q - 1) = none)) ≠ [] then
        (pick (centerPositions.filter (fun q => decide (b2 (q - 1) = none))), b2)
      else if cornerPositions.filter (fun q => decide (b2 (q - 1) = none)) ≠ [] then
        (pick (cornerPositions.filter (fun q => decide (b2 (q - 1) = none))), b2)
      else
        (pick (((List.range 16).filter
          (fun i => decide (b2 i = none))).map (fun i => i + 1)), b2)

/-- Marking cell i with sym would give sym a complete line: the geometric
description of the win/block trial at cell i. -/
def winCell (bd : Board) (sym : Mark) (i : Nat) : Prop :=
  bd i = none ∧ hasLine (Function.update bd i (some sym)) sym

instance (bd : Board) (sym : Mark) (i : Nat) : Decidable (winCell bd sym i) := by
  unfold winCell
  infer_instance

/-- Every trial is undone: the scan returns the board it was given. -/
theorem scanTrial_board (sym : Mark) (mc : Nat) :
    ∀ (bd : Board) (l : List Nat), (scanTrial sym mc bd l).2 = bd := by
  intro bd l
  induction l generalizing bd with
  | nil => rfl
  | cons i rest ih =>
    show (scanTrial sym mc bd (i :: rest)).2 = bd
    unfold scanTrial
    by_cases hbd : bd i = none
    · have hundo : Function.update (Function.update bd i (some sym)) i none = bd := by
        rw [Function.update_idem, ← hbd, Function.update_eq_self]
      rw [if_pos hbd]
      by_cases hwin :
          checkWinner (Function.update bd i (some sym)) mc = CWRes.mark sym
      · simp only [hwin, if_pos]
        exact hundo
      · simp only [hwin, if_neg, ite_false]
        rw [hundo]
        exact ih bd
    · rw [if_neg hbd]
      exact ih bd

/-- find? only depends on the predicate's values on the list. -/
theorem find?_congruent (l : List α) (p q : α → Bool)
    (h : ∀ a ∈ l, p a = q a) : l.find? p = l.find? q := by
  induction l with
  | nil => rfl
  | cons a t ih =>
    rw [List.find?_cons, List.find?_cons, h a (List.mem_cons_self a t)]
    cases hq : q a with
    | true => rfl
    | false => exact ih (fun x hx => h x (List.mem_cons_of_mem a hx))

/-- The first component of the scan is the first index (shifted to a
1-indexed position) at which the cell is empty and the trial mark wins
according to check_winner. -/
theorem scanTrial_fst (sym : Mark) (mc : Nat) (bd : Board) (l : List Nat) :
    (scanTrial sym mc bd l).1 =
      (l.find? (fun i => decide (bd i = none) &&
        decide (checkWinner (Function.update bd i (some sym)) mc
          = CWRes.mark sym))).map (fun i => i + 1) := by
  induction l generalizing bd with
  | nil => rfl
  | cons i rest ih =>
    rw [List.find?_cons]
    show (scanTrial sym mc bd (i :: rest)).1 = _
    unfold scanTrial
    by_cases hbd : bd i = none
    · have hundo : Function.update (Function.update bd i (some sym)) i none = bd := by
        rw [Function.update_idem, ← hbd, Function.update_eq_self]
      rw [if_pos hbd]
      by_cases hwin :
          checkWinner (Function.update bd i (some sym)) mc = CWRes.mark sym
      · simp [hbd, hwin]
      · have hfalse : (decide (bd i = none) && decide (checkWinner
            (Function.update bd i (some sym)) mc = CWRes.mark sym)) = false := by
          simp [hwin]
        rw [hfalse]
        simp only [hwin, if_neg, ite_false]
        rw [hundo]
        simpa using ih bd
    · simp only [if_neg hbd]
      have : (decide (bd i = none) && decide (checkWinner
          (Function.update bd i (some sym)) mc = CWRes.mark sym)) = false := by
        simp [hbd]
      rw [this]
      exact ih bd

/-- A complete line of mark m survives removing an update with a
different value. -/
theorem lineAll_update_of_ne (bd : Board) (i : Nat) (v : Option Mark)
    (m : Mark) (hv : v ≠ some m) (l : Line4)
    (h : lineAll (Function.update bd i v) l m) : lineAll bd l m := by
  obtain ⟨ha, hb, hc, hd⟩ := h
  refine ⟨?_, ?_, ?_, ?_⟩
  · by_cases e : l.a = i
    · rw [e, Function.update_same] at ha
      exact absurd ha hv
    · rwa [Function.update_noteq e] at ha
  · by_cases e : l.b = i
    · rw [e, Function.update_same] at hb
      exact absurd hb hv
    · rwa [Function.update_noteq e] at hb
  · by_cases e : l.c = i
    · rw [e, Function.update_same] at hc
      exact absurd hc hv
    · rwa [Function.update_noteq e] at hc
  · by_cases e : l.d = i
    · rw [e, Function.update_same] at hd
      exact absurd hd hv
    · rwa [Function.update_noteq e] at hd

/-- A mark other than the one just written cannot have gained a line. -/
theorem hasLine_update_of_ne (bd : Board) (i : Nat) (v : Option Mark)
    (m : Mark) (hv : v ≠ some m)
    (h : hasLine (Function.update bd i v) m) : hasLine bd m := by
  obtain ⟨l, hl, hall⟩ := h
  exact ⟨l, hl, lineAll_update_of_ne bd i v m hv l hall⟩

/-- On a board with no complete line, the code's trial test (mark, call
check_winner, compare) agrees with the geometric test winCell. -/
theorem trialPred_eq_winCell (bd : Board) (mc : Nat) (sym : Mark)
    (hnl : ¬ hasLine bd Mark.X ∧ ¬ hasLine bd Mark.O) (i : Nat) :
    (decide (bd i = none) && decide (checkWinner
      (Function.update bd i (some sym)) mc = CWRes.mark sym))
      = decide (winCell bd sym i) := by
  unfold winCell
  by_cases hbd : bd i = none
  · have hone : ¬ (hasLine (Function.update bd i (some sym)) Mark.X ∧
        hasLine (Function.update bd i (some sym)) Mark.O) := by
      rintro ⟨hx, ho⟩
      cases sym with
      | X => exact hnl.2 (hasLine_update_of_ne bd i (some Mark.X) Mark.O
          (by simp) ho)
      | O => exact hnl.1 (hasLine_update_of_ne bd i (some Mark.O) Mark.X
          (by simp) hx)
    have hiff := checkWinner_mark_iff (Function.update bd i (some sym)) mc sym hone
    simp [hbd, hiff]
  · simp [hbd]

/-- A deterministic stand-in for random.choice used in concrete witness
evaluations: take the head of the candidate list. -/
def pickHead (l : List Nat) : Nat := l.headD 0

/-- pickHead satisfies the only property the spec theorems assume of
random.choice: it selects an element of any non-empty list. -/
theorem pickHead_mem (l : List Nat) (h : l ≠ []) : pickHead l ∈ l := by
  cases l with
  | nil => exact absurd rfl h
  | cons a t => simp [pickHead]

/-! ## Statistics tracker (tictactoe.py: update_stats; coinflip.py has the
same streak logic without the move-count histograms) -/

/-- The statistics dictionary of tictactoe.py. The two move-count
histograms (dict keys 4..16) are modelled as functions. -/
structure Stats where
  total_games : Nat
  wins : Nat
  losses : Nat
  ties : Nat
  current_streak : Int
  longest_win_streak : Int
  longest_loss_streak : Int
  total_moves : Nat
  gamesWonIn : Nat → Nat
  gamesLostIn : Nat → Nat

/-- Fresh statistics: every counter zero. -/
def initStats : Stats :=
  { total_games := 0, wins := 0, losses := 0, ties := 0,
    current_streak := 0, longest_win_streak := 0, longest_loss_streak := 0,
    total_moves := 0, gamesWonIn := fun _ => 0, gamesLostIn := fun _ => 0 }

/-- Outcome of a round as passed to update_stats. -/
inductive RoundResult where
  | player
  | ai
  | tie
deriving DecidableEq, Repr

/-- The histogram update: the Python dicts only have keys 4..16, so the
bump happens exactly when the move count is in that range. -/
def bumpHist (h : Nat → Nat) (mc : Nat) : Nat → Nat :=
  if 4 ≤ mc ∧ mc ≤ 16 then Function.update h mc (h mc + 1) else h

/-- TicTacToeGame.update_stats: total_games always increments; a win
increments wins, extends or restarts a positive streak, and refreshes the
longest win streak; a loss is the mirror image with negative streaks and
abs; a tie increments ties and resets the streak to zero. -/
def updateStats (mc : Nat) (result : RoundResult) (s : Stats) : Stats :=
  let s1 : Stats := { s with total_games := s.total_games + 1 }
  match result with
  | .player =>
    let cs := if 0 ≤ s1.current_streak then s1.current_streak + 1 else 1
    { s1 with
      wins := s1.wins + 1
      current_streak := cs
      longest_win_streak := max s1.longest_win_streak cs
      gamesWonIn := bumpHist s1.gamesWonIn mc }
  | .ai =>
    let cs := if s1.current_streak ≤ 0 then s1.current_streak - 1 else -1
    { s1 with
      losses := s1.losses + 1
      current_streak := cs
      longest_loss_streak := max s1.longest_loss_streak |cs|
      gamesLostIn := bumpHist s1.gamesLostIn mc }
  | .tie =>
    { s1 with
      ties := s1.ties + 1
      current_streak := 0 }

/-- Fold a sequence of round outcomes through update_stats starting from
fresh statistics. The move count passed along (0) does not touch any
histogram key and leaves the streak fields untouched. -/
def runSeq (l : List RoundResult) : Stats :=
  l.foldl (fun s r => updateStats 0 r s) initStats

/-! ## Session operations across the games (for the balance invariant) -/

/-- The four settlement outcomes of a blackjack round
(BlackjackGame.play_round). -/
inductive BJOutcome where
  | winStandard
  | winNatural
  | lose
  | push
deriving DecidableEq, Repr

/-- Every balance-relevant operation a game session performs: blackjack
wager placement and settlement, a coin-flip round settlement
(CoinFlipGame.play_round credits or debits the bet directly), a
tic-tac-toe round settlement (TicTacToeGame.play_round; a tie leaves the
balance alone), a statistics update, and a round reset (reset_hand /
reset_board, which do not touch the balance). -/
inductive SessionOp where
  | bjPlace (amount : Int)
  | bjSettle (o : BJOutcome)
  | cfRound (bet : Int) (won : Bool)
  | tttRound (bet : Int) (r : RoundResult)
  | recordStats (mc : Nat) (r : RoundResult)
  | resetRound
deriving Repr

/-- The balance-relevant session state: the player ledger plus the
statistics object. -/
structure Session where
  player : Player
  stats : Stats

/-- One session operation, compiled faithfully from the corresponding
source lines. -/
def stepOp (s : Session) (op : SessionOp) : Session :=
  match op with
  | .bjPlace a => { s with player := (placeBet s.player a).2 }
  | .bjSettle .winStandard => { s with player := winBet s.player Mult.standard }
  | .bjSettle .winNatural => { s with player := winBet s.player Mult.natural }
  | .bjSettle .lose => { s with player := loseBet s.player }
  | .bjSettle .push => { s with player := pushBet s.player }
  | .cfRound bet won =>
    { s with player := { balance := if won then s.player.balance + bet
        else s.player.balance - bet, bet := s.player.bet } }
  | .tttRound bet r =>
    { s with player := { balance := match r with
        | .player => s.player.balance + bet
        | .ai => s.player.balance - bet
        | .tie => s.player.balance, bet := s.player.bet } }
  | .recordStats mc r => { s with stats := updateStats mc r s.stats }
  | .resetRound => s

/-- The claim's precondition: every wager placed is a positive amount not
exceeding the balance at placement time. Settlements, statistics updates
and resets carry no precondition. -/
def opValid (s : Session) (op : SessionOp) : Prop :=
  match op with
  | .bjPlace a => 0 < a ∧ a ≤ s.player.balance
  | .cfRound bet _ => 0 < bet ∧ bet ≤ s.player.balance
  | .tttRound bet _ => 0 < bet ∧ bet ≤ s.player.balance
  | _ => True

/-- The balance invariant, together with the escrow-nonnegativity that the
placement precondition establishes and settlement consumes. -/
def balInv (s : Session) : Prop :=
  0 ≤ s.player.balance ∧ 0 ≤ s.player.bet

/-! ## Concrete boards used in witnesses and counterexamples -/

/-- The empty board. -/
def bdEmpty : Board := fun _ => none

/-- A board whose row 0 is all X and row 1 all O: two complete lines of
different marks at once. Eight cells are filled, so move_count 8 keeps the
move-count invariant. -/
def bdTwoLines : Board := fun i =>
  if i ≤ 3 then some Mark.X
  else if i ≤ 7 then some Mark.O
  else none

/-- A board whose row 0 is already complete for X while cell 11 would
complete row 2 for O. Seven cells are filled. -/
def bdBlocked : Board := fun i =>
  if i ≤ 3 then some Mark.X
  else if 8 ≤ i ∧ i ≤ 10 then some Mark.O
  else none

/-! ## Auxiliary lemmas for the ace-reduction and dealer-loop claims -/

/-- Characterization of the ace-demotion loop: it subtracts 10 exactly k
times for some k bounded by the ace count, every earlier prefix still
exceeded 21 (so k is the minimum number of demotions), and it stops only
at 21 or below or because the aces ran out. -/
theorem reduceAces_min (a v : Nat) :
    ∃ k, k ≤ a ∧ reduceAces v a = v - 10 * k ∧
      (∀ j, j < k → 21 < v - 10 * j) ∧
      (reduceAces v a ≤ 21 ∨ k = a) := by
  induction a generalizing v with
  | zero =>
    refine ⟨0, Nat.le_refl 0, by simp [reduceAces], ?_, Or.inr rfl⟩
    intro j hj
    exact absurd hj (Nat.not_lt_zero j)
  | succ a ih =>
    by_cases hv : 21 < v
    · obtain ⟨k, hk, he, hj, hor⟩ := ih (v - 10)
      have hred : reduceAces v (a + 1) = reduceAces (v - 10) a := by
        simp [reduceAces, hv]
      refine ⟨k + 1, by omega, by rw [hred]; omega, ?_, ?_⟩
      · intro j hjk
        cases j with
        | zero => simpa using hv
        | succ j' =>
          have := hj j' (by omega)
          omega
      · rcases hor with h1 | h1
        · exact Or.inl (by rw [hred]; exact h1)
        · exact Or.inr (by omega)
    · have hred : reduceAces v (a + 1) = v := by
        simp [reduceAces, hv]
      refine ⟨0, by omega, by rw [hred]; omega, ?_, Or.inl (by omega)⟩
      intro j hj
      exact absurd hj (Nat.not_lt_zero j)

/-- Unfolding of the dealer loop once. -/
theorem dealerTurn_unfold (sh : Nat → List Card) (h : Hand) (d : Deck) :
    dealerTurn sh h d =
      if handValue h < 17 then
        dealerTurn sh (h ++ [(dealCard sh d).1]) (dealCard sh d).2
      else (h, d) := by
  rw [dealerTurn]
  by_cases hlt : handValue h < 17 <;> simp [hlt]

/-- Fuel-indexed form of the dealer-loop postcondition. -/
theorem dealerTurn_ge_aux (n : Nat) :
    ∀ (sh : Nat → List Card) (h : Hand) (d : Deck),
      17 - lowSum h ≤ n → 17 ≤ handValue (dealerTurn sh h d).1 := by
  induction n with
  | zero =>
    intro sh h d hn
    have hls := lowSum_le_handValue h
    rw [dealerTurn_unfold]
    rw [if_neg (by omega)]
    show 17 ≤ handValue h
    omega
  | succ n ih =>
    intro sh h d hn
    by_cases hlt : handValue h < 17
    · have hls := lowSum_le_handValue h
      have happ := lowSum_append h (dealCard sh d).1
      have hlow := one_le_lowValue ((dealCard sh d).1).rank
      rw [dealerTurn_unfold, if_pos hlt]
      exact ih sh (h ++ [(dealCard sh d).1]) (dealCard sh d).2 (by omega)
    · rw [dealerTurn_unfold, if_neg hlt]
      show 17 ≤ handValue h
      omega

/-! ## Claim theorems -/

/-- C1 counterexample: the claim says placement fails with invalid_amount
whenever amount ≤ 0, but Player.place_bet accepts amount 0 (it only checks
amount > balance): on balance 10 it returns True and escrows 0. -/
theorem placeBet_nonpositive_accepted :
    (0 : Int) ≤ 0 ∧ (placeBet ⟨10, 0⟩ 0).1 = true ∧
      (placeBet ⟨10, 0⟩ 0).2.bet = 0 := by
  decide

/-- C1 (amended): Player.place_bet fails exactly when amount > balance,
leaving the player state unchanged on failure; on success it decrements
the balance by the amount and escrows it. Non-positive amounts are
screened out only by the bet prompt loop (get_bet_amount), not by the
placement operation itself. -/
theorem placeBet_contract (p : Player) (a : Int) :
    ((placeBet p a).1 = false ↔ p.balance < a) ∧
    ((placeBet p a).1 = false → (placeBet p a).2 = p) ∧
    ((placeBet p a).1 = true →
      (placeBet p a).2.balance = p.balance - a ∧ (placeBet p a).2.bet = a) := by
  unfold placeBet
  by_cases hc : p.balance < a
  · simp [hc]
  · simp [hc]

/-- Witness for placeBet_contract at balance 1000 and amount 200. -/
theorem placeBet_contract_witness :
    ((placeBet ⟨1000, 0⟩ 200).1 = false ↔ (1000 : Int) < 200) ∧
    ((placeBet ⟨1000, 0⟩ 200).1 = false →
      (placeBet ⟨1000, 0⟩ 200).2 = (⟨1000, 0⟩ : Player)) ∧
    ((placeBet ⟨1000, 0⟩ 200).1 = true →
      (placeBet ⟨1000, 0⟩ 200).2.balance = 1000 - 200 ∧
        (placeBet ⟨1000, 0⟩ 200).2.bet = 200) :=
  placeBet_contract ⟨1000, 0⟩ 200

/-- C2 counterexample: folding update_stats over
[win, win, loss, win, tie, loss, loss, loss] from fresh statistics leaves
current_streak at -3 (three consecutive losses after the tie reset), not
the claimed -1. -/
theorem runSeq_current_streak_ne_neg_one :
    (runSeq [RoundResult.player, RoundResult.player, RoundResult.ai,
      RoundResult.player, RoundResult.tie, RoundResult.ai, RoundResult.ai,
      RoundResult.ai]).current_streak ≠ -1 := by
  decide

/-- C2 (amended): that outcome sequence yields longest_win_streak 2,
longest_loss_streak 3, and current_streak -3. -/
theorem runSeq_streaks :
    (runSeq [RoundResult.player, RoundResult.player, RoundResult.ai,
      RoundResult.player, RoundResult.tie, RoundResult.ai, RoundResult.ai,
      RoundResult.ai]).longest_win_streak = 2 ∧
    (runSeq [RoundResult.player, RoundResult.player, RoundResult.ai,
      RoundResult.player, RoundResult.tie, RoundResult.ai, RoundResult.ai,
      RoundResult.ai]).longest_loss_streak = 3 ∧
    (runSeq [RoundResult.player, RoundResult.player, RoundResult.ai,
      RoundResult.player, RoundResult.tie, RoundResult.ai, RoundResult.ai,
      RoundResult.ai]).current_streak = -3 := by
  decide

/-- C3 counterexample: with escrow 5 (place 5 on balance 1005, leaving
1000), a natural win pays int(5 * 1.5) = 7, giving balance 1012; the
claimed exact value 1000 + 5 * 2.5 = 1012.5 is not an integer, so twice
the resulting balance differs from 2 * 1000 + 5 * 5 = 2025. -/
theorem winBet_natural_not_exact :
    (winBet (placeBet ⟨1005, 0⟩ 5).2 Mult.natural).balance = 1012 ∧
    2 * (winBet (placeBet ⟨1005, 0⟩ 5).2 Mult.natural).balance ≠
      2 * 1000 + 5 * 5 := by
  decide

/-- C3 (amended): from a post-placement balance b with escrow e, a
standard win yields exactly b + 2e; a natural win yields
b + e + int(1.5 e) (truncated), which equals the claimed exact
b + 2.5 e precisely when e is even; a push yields b + e; a loss leaves b;
and the spec's concrete scenario place(200) on 1000 then natural win
yields 1300. -/
theorem settle_spec (b e : Int) :
    (winBet ⟨b, e⟩ Mult.standard).balance = b + 2 * e ∧
    (winBet ⟨b, e⟩ Mult.natural).balance = b + e + Int.tdiv (3 * e) 2 ∧
    (∀ k, e = 2 * k → 2 * (winBet ⟨b, e⟩ Mult.natural).balance =
      2 * b + 5 * e) ∧
    (pushBet ⟨b, e⟩).balance = b + e ∧
    (loseBet ⟨b, e⟩).balance = b ∧
    (winBet (placeBet ⟨1000, 0⟩ 200).2 Mult.natural).balance = 1300 := by
  refine ⟨?_, ?_, ?_, rfl, rfl, by decide⟩
  · show b + e + e = b + 2 * e
    ring
  · show b + Int.tdiv (3 * e) 2 + e = b + e + Int.tdiv (3 * e) 2
    ring
  · rintro k rfl
    have h6 : (3 : Int) * (2 * k) = 2 * (3 * k) := by ring
    show 2 * (b + Int.tdiv (3 * (2 * k)) 2 + 2 * k) = 2 * b + 5 * (2 * k)
    rw [h6, Int.mul_tdiv_cancel_left _ (by decide : (2 : Int) ≠ 0)]
    ring

/-- Witness for settle_spec: escrow 200 is even, so the natural win is
exact there. -/
theorem settle_spec_witness :
    2 * (winBet ⟨(800 : Int), 200⟩ Mult.natural).balance =
      2 * 800 + 5 * 200 :=
  (settle_spec 800 200).2.2.1 100 (by decide)

/-- C7: the hand value equals the aces-high sum minus 10 for each of a
minimal number of ace demotions (every earlier demotion count still
exceeded 21, and the loop stops at 21 or below unless the aces ran out);
in particular {A, A, 9} evaluates to 21 and {A, A, A} to 13. -/
theorem handValue_spec :
    (∀ h : Hand, ∃ k, k ≤ aceCount h ∧
      handValue h = sumHigh h - 10 * k ∧
      (∀ j, j < k → 21 < sumHigh h - 10 * j) ∧
      (handValue h ≤ 21 ∨ k = aceCount h)) ∧
    handValue [⟨Suit.hearts, Rank.ace⟩, ⟨Suit.spades, Rank.ace⟩,
      ⟨Suit.clubs, Rank.nine⟩] = 21 ∧
    handValue [⟨Suit.hearts, Rank.ace⟩, ⟨Suit.spades, Rank.ace⟩,
      ⟨Suit.clubs, Rank.ace⟩] = 13 := by
  refine ⟨fun h => ?_, by decide, by decide⟩
  exact reduceAces_min (aceCount h) (sumHigh h)

/-- C9: the dealer's drawing loop is a terminating function (its
well-founded recursion is justified by the strictly increasing
fully-demoted hand sum), and whatever the shoe contents and reshuffle
sequence, the dealer's final hand value is at least 17. -/
theorem dealerTurn_final_ge_17 (sh : Nat → List Card) (h : Hand) (d : Deck) :
    17 ≤ handValue (dealerTurn sh h d).1 :=
  dealerTurn_ge_aux (17 - lowSum h) sh h d (Nat.le_refl _)

/-- C8: update_stats means what the spec says field by field: a win
increments wins and total_games and extends a non-negative streak by one
(else restarts at 1), then refreshes longest_win_streak with the new
streak; a loss mirrors this with negative streaks and
longest_loss_streak tracking the absolute value; a tie increments ties
and total_games and resets the streak to 0. -/
theorem updateStats_spec (s : Stats) (mc : Nat) :
    ((updateStats mc RoundResult.player s).wins = s.wins + 1 ∧
     (updateStats mc RoundResult.player s).total_games = s.total_games + 1 ∧
     (updateStats mc RoundResult.player s).current_streak =
       (if 0 ≤ s.current_streak then s.current_streak + 1 else 1) ∧
     (updateStats mc RoundResult.player s).longest_win_streak =
       max s.longest_win_streak
         (updateStats mc RoundResult.player s).current_streak) ∧
    ((updateStats mc RoundResult.ai s).losses = s.losses + 1 ∧
     (updateStats mc RoundResult.ai s).total_games = s.total_games + 1 ∧
     (updateStats mc RoundResult.ai s).current_streak =
       (if s.current_streak ≤ 0 then s.current_streak - 1 else -1) ∧
     (updateStats mc RoundResult.ai s).longest_loss_streak =
       max s.longest_loss_streak
         |(updateStats mc RoundResult.ai s).current_streak|) ∧
    ((updateStats mc RoundResult.tie s).ties = s.ties + 1 ∧
     (updateStats mc RoundResult.tie s).total_games = s.total_games + 1 ∧
     (updateStats mc RoundResult.tie s).current_streak = 0) :=
  ⟨⟨rfl, rfl, rfl, rfl⟩, ⟨rfl, rfl, rfl, rfl⟩, ⟨rfl, rfl, rfl⟩⟩

/-- C4: every balance-relevant operation of every game session preserves
a non-negative balance (and a non-negative escrow), provided each wager
placed is positive and does not exceed the balance at placement time. -/
theorem stepOp_preserves_balInv (s : Session) (op : SessionOp)
    (hinv : balInv s) (hop : opValid s op) : balInv (stepOp s op) := by
  obtain ⟨hbal, hbet⟩ := hinv
  cases op with
  | bjPlace a =>
    obtain ⟨h1, h2⟩ := hop
    show balInv { s with player := (placeBet s.player a).2 }
    unfold placeBet
    rw [if_neg (by omega)]
    exact ⟨by simpa using by omega, by simpa using by omega⟩
  | bjSettle o =>
    cases o with
    | winStandard => exact ⟨by simp [stepOp, winBet, winnings]; omega, by simp [stepOp, winBet]⟩
    | winNatural =>
      have htd : 0 ≤ Int.tdiv (3 * s.player.bet) 2 :=
        Int.tdiv_nonneg (by omega) (by decide)
      exact ⟨by simp [stepOp, winBet, winnings]; omega, by simp [stepOp, winBet]⟩
    | lose => exact ⟨by simpa [stepOp, loseBet] using hbal, by simp [stepOp, loseBet]⟩
    | push => exact ⟨by simp [stepOp, pushBet]; omega, by simp [stepOp, pushBet]⟩
  | cfRound bet won =>
    obtain ⟨h1, h2⟩ := hop
    cases won with
    | true => exact ⟨by simp [stepOp]; omega, by simpa [stepOp] using hbet⟩
    | false => exact ⟨by simp [stepOp]; omega, by simpa [stepOp] using hbet⟩
  | tttRound bet r =>
    obtain ⟨h1, h2⟩ := hop
    cases r with
    | player => exact ⟨by simp [stepOp]; omega, by simpa [stepOp] using hbet⟩
    | ai => exact ⟨by simp [stepOp]; omega, by simpa [stepOp] using hbet⟩
    | tie => exact ⟨by simpa [stepOp] using hbal, by simpa [stepOp] using hbet⟩
  | recordStats mc r => exact ⟨hbal, hbet⟩
  | resetRound => exact ⟨hbal, hbet⟩

/-- Witness for stepOp_preserves_balInv: placing a wager of 200 on a
fresh session with balance 1000. -/
theorem stepOp_preserves_balInv_witness :
    balInv (stepOp ⟨⟨1000, 0⟩, initStats⟩ (SessionOp.bjPlace 200)) :=
  stepOp_preserves_balInv ⟨⟨1000, 0⟩, initStats⟩ (SessionOp.bjPlace 200)
    ⟨by decide, by decide⟩ ⟨by decide, by decide⟩

/-- C5 counterexample: on the (move-count-consistent) board whose row 0
is all X and row 1 all O, O has a complete line yet check_winner does not
return O (it returns the first complete line's mark, X), refuting the
claimed equivalence for every board state. -/
theorem checkWinner_two_lines_counterexample :
    hasLine bdTwoLines Mark.O ∧ (8 : Nat) + emptyCount bdTwoLines = 16 ∧
    checkWinner bdTwoLines 8 ≠ CWRes.mark Mark.O := by
  decide

/-- C5 (amended): for boards where at most one mark has a complete line
(true of every board reachable by legal alternating play) and whose
move_count equals the number of filled cells, check_winner returns mark m
iff m has a complete row, column or diagonal; returns tie iff no line is
complete and no cell is empty; and returns None iff no line is complete
and some cell is empty. -/
theorem checkWinner_spec (bd : Board) (mc : Nat)
    (hmc : mc + emptyCount bd = 16)
    (hone : ¬ (hasLine bd Mark.X ∧ hasLine bd Mark.O)) :
    (∀ m, checkWinner bd mc = CWRes.mark m ↔ hasLine bd m) ∧
    (checkWinner bd mc = CWRes.tie ↔
      ((∀ m, ¬ hasLine bd m) ∧ emptyCount bd = 0)) ∧
    (checkWinner bd mc = CWRes.cont ↔
      ((∀ m, ¬ hasLine bd m) ∧ 0 < emptyCount bd)) := by
  refine ⟨fun m => checkWinner_mark_iff bd mc m hone, ?_, ?_⟩
  · rw [checkWinner_tie_iff]
    constructor
    · rintro ⟨hnl, hmc16⟩
      exact ⟨hnl, by omega⟩
    · rintro ⟨hnl, hec⟩
      exact ⟨hnl, by omega⟩
  · rw [checkWinner_cont_iff]
    constructor
    · rintro ⟨hnl, hmc16⟩
      exact ⟨hnl, by omega⟩
    · rintro ⟨hnl, hec⟩
      exact ⟨hnl, by omega⟩

/-- Witness for checkWinner_spec: on the blocked board (row 0 all X,
seven cells filled) check_winner reports the X line. -/
theorem checkWinner_spec_witness :
    checkWinner bdBlocked 7 = CWRes.mark Mark.X :=
  ((checkWinner_spec bdBlocked 7 (by decide) (by decide)).1 Mark.X).mpr
    (by decide)

/-- C10: the AI move chooser returns the board exactly as it found it:
every trial mark placed during the win-check and block-check scans is
undone. -/
theorem getAiMove_preserves_board (pick : List Nat → Nat) (bd : Board)
    (mc : Nat) (hempty : ∃ i ∈ List.range 16, bd i = none) :
    (getAiMove pick bd mc).2 = bd := by
  have hO2 := scanTrial_board Mark.O mc bd (List.range 16)
  have hX2 := scanTrial_board Mark.X mc bd (List.range 16)
  simp only [getAiMove, hO2, hX2]
  cases hO1 : (scanTrial Mark.O mc bd (List.range 16)).1 with
  | some p => rfl
  | none =>
    cases hX1 : (scanTrial Mark.X mc bd (List.range 16)).1 with
    | some p => rfl
    | none => split_ifs <;> rfl

/-- Witness for getAiMove_preserves_board on the empty board. -/
theorem getAiMove_preserves_board_witness :
    (getAiMove pickHead bdEmpty 0).2 = bdEmpty :=
  getAiMove_preserves_board pickHead bdEmpty 0 (by decide)

/-- C6 counterexample: on the blocked board (X already owns row 0, O
misses only cell 11 of row 2) marking cell 11 would complete an O line -
the scan's first and only winning cell - yet get_ai_move returns
position 5: every win trial sees check_winner report the earlier X row,
so the win tier misses, and the block tier then fires on the first empty
cell. The claimed tier selection demands position 12 here. -/
theorem getAiMove_counterexample :
    (List.range 16).find? (fun i => decide (winCell bdBlocked Mark.O i))
      = some 11 ∧
    (∃ i ∈ List.range 16, bdBlocked i = none) ∧
    (getAiMove pickHead bdBlocked 7).1 = 5 := by
  decide

/-- C6 (amended): on a board with an empty cell and no already-complete
line (the state in which the game loop consults the AI), the chosen
position is an empty cell in 1..16 taken from the highest applicable
tier: the first cell in scan order whose marking completes an O line;
else the first whose marking would complete an X line; else one of the
four empty innermost cells; else one of the four empty corner cells;
else any empty cell - for any pick function that selects an element of a
non-empty list, as random.choice does. -/
theorem getAiMove_spec (pick : List Nat → Nat) (bd : Board) (mc : Nat)
    (hpick : ∀ l : List Nat, l ≠ [] → pick l ∈ l)
    (hempty : ∃ i ∈ List.range 16, bd i = none)
    (hnl : ¬ hasLine bd Mark.X ∧ ¬ hasLine bd Mark.O) :
    (1 ≤ (getAiMove pick bd mc).1 ∧ (getAiMove pick bd mc).1 ≤ 16 ∧
      bd ((getAiMove pick bd mc).1 - 1) = none) ∧
    (∀ j, (List.range 16).find? (fun i => decide (winCell bd Mark.O i))
        = some j → (getAiMove pick bd mc).1 = j + 1) ∧
    ((List.range 16).find? (fun i => decide (winCell bd Mark.O i)) = none →
      ∀ j, (List.range 16).find? (fun i => decide (winCell bd Mark.X i))
        = some j → (getAiMove pick bd mc).1 = j + 1) ∧
    ((List.range 16).find? (fun i => decide (winCell bd Mark.O i)) = none →
      (List.range 16).find? (fun i => decide (winCell bd Mark.X i)) = none →
      centerPositions.filter (fun q => decide (bd (q - 1) = none)) ≠ [] →
      (getAiMove pick bd mc).1 ∈
        centerPositions.filter (fun q => decide (bd (q - 1) = none))) ∧
    ((List.range 16).find? (fun i => decide (winCell bd Mark.O i)) = none →
      (List.range 16).find? (fun i => decide (winCell bd Mark.X i)) = none →
      centerPositions.filter (fun q => decide (bd (q - 1) = none)) = [] →
      cornerPositions.filter (fun q => decide (bd (q - 1) = none)) ≠ [] →
      (getAiMove pick bd mc).1 ∈
        cornerPositions.filter (fun q => decide (bd (q - 1) = none))) := by
  have hO2 := scanTrial_board Mark.O mc bd (List.range 16)
  have hX2 := scanTrial_board Mark.X mc bd (List.range 16)
  have hO1 : (scanTrial Mark.O mc bd (List.range 16)).1 =
      ((List.range 16).find? (fun i => decide (winCell bd Mark.O i))).map
        (fun i => i + 1) := by
    rw [scanTrial_fst]
    congr 1
    exact find?_congruent _ _ _ (fun i _ => trialPred_eq_winCell bd mc Mark.O hnl i)
  have hX1 : (scanTrial Mark.X mc bd (List.range 16)).1 =
      ((List.range 16).find? (fun i => decide (winCell bd Mark.X i))).map
        (fun i => i + 1) := by
    rw [scanTrial_fst]
    congr 1
    exact find?_congruent _ _ _ (fun i _ => trialPred_eq_winCell bd mc Mark.X hnl i)
  cases hfO : (List.range 16).find? (fun i => decide (winCell bd Mark.O i)) with
  | some j =>
    have hmove : (getAiMove pick bd mc).1 = j + 1 := by
      simp only [getAiMove]
      rw [hO1, hfO]
      simp
    have hwin : winCell bd Mark.O j := by
      have := List.find?_some hfO
      simpa using this
    have hjlt : j < 16 := by
      have := List.mem_of_find?_eq_some hfO
      simpa using this
    refine ⟨⟨by omega, by omega, ?_⟩, ?_, ?_, ?_, ?_⟩
    · rw [hmove]
      simpa using hwin.1
    · intro j' hj'
      obtain rfl : j = j' := by simpa using hj'
      exact hmove
    · intro habs
      exact absurd habs (by simp)
    · intro habs
      exact absurd habs (by simp)
    · intro habs
      exact absurd habs (by simp)
  | none =>
    cases hfX : (List.range 16).find? (fun i => decide (winCell bd Mark.X i)) with
    | some j =>
      have hmove : (getAiMove pick bd mc).1 = j + 1 := by
        simp only [getAiMove]
        rw [hO1, hfO]
        simp only [Option.map_none', hO2]
        rw [hX1, hfX]
        simp
      have hwin : winCell bd Mark.X j := by
        have := List.find?_some hfX
        simpa using this
      have hjlt : j < 16 := by
        have := List.mem_of_find?_eq_some hfX
        simpa using this
      refine ⟨⟨by omega, by omega, ?_⟩, ?_, ?_, ?_, ?_⟩
      · rw [hmove]
        simpa using hwin.1
      · intro j' hj'
        exact absurd hj' (by simp)
      · intro hnone j' hj'
        obtain rfl : j = j' := by simpa using hj'
        exact hmove
      · intro hnone habs
        exact absurd habs (by simp)
      · intro hnone habs
        exact absurd habs (by simp)
    | none =>
      by_cases hcs : centerPositions.filter (fun q => decide (bd (q - 1) = none)) = []
      · by_cases hks : cornerPositions.filter (fun q => decide (bd (q - 1) = none)) = []
        · -- tier 5: any empty cell
          have hne : ((List.range 16).filter
              (fun i => decide (bd i = none))).map (fun i => i + 1) ≠ [] := by
            obtain ⟨i, hi, hie⟩ := hempty
            have : i ∈ (List.range 16).filter (fun i => decide (bd i = none)) :=
              List.mem_filter.mpr ⟨hi, by simpa using hie⟩
            intro habs
            rw [List.map_eq_nil_iff] at habs
            rw [habs] at this
            exact absurd this (List.not_mem_nil i)
          have hmove : (getAiMove pick bd mc).1 =
              pick (((List.range 16).filter
                (fun i => decide (bd i = none))).map (fun i => i + 1)) := by
            simp only [getAiMove, hO2, hX2]
            rw [hO1, hfO]
            simp only [Option.map_none']
            rw [hX1, hfX]
            simp only [Option.map_none']
            rw [if_neg (fun hne => hne hcs), if_neg (fun hne => hne hks)]
          have hmem := hpick _ hne
          rw [← hmove] at hmem
          obtain ⟨i, hif, hieq⟩ := List.mem_map.mp hmem
          have hifm := List.mem_filter.mp hif
          have hilt : i < 16 := by simpa using hifm.1
          have hie : bd i = none := by simpa using hifm.2
          refine ⟨⟨by omega, by omega, ?_⟩, ?_, ?_, ?_, ?_⟩
          · rw [← hieq]
            simpa using hie
          · intro j hj
            exact absurd hj (by simp)
          · intro hnone j hj
            exact absurd hj (by simp)
          · intro hnone1 hnone2 habs
            exact absurd hcs habs
          · intro hnone1 hnone2 hcsx habs
            exact absurd hks habs
        · -- tier 4: corners
          have hmove : (getAiMove pick bd mc).1 =
              pick (cornerPositions.filter (fun q => decide (bd (q - 1) = none))) := by
            simp only [getAiMove, hO2, hX2]
            rw [hO1, hfO]
            simp only [Option.map_none']
            rw [hX1, hfX]
            simp only [Option.map_none']
            rw [if_neg (fun hne => hne hcs), if_pos hks]
          have hmem := hpick _ hks
          rw [← hmove] at hmem
          have hmf := List.mem_filter.mp hmem
          have hval : (getAiMove pick bd mc).1 ∈ cornerPositions := hmf.1
          have hie : bd ((getAiMove pick bd mc).1 - 1) = none := by
            simpa using hmf.2
          have hbounds : 1 ≤ (getAiMove pick bd mc).1 ∧
              (getAiMove pick bd mc).1 ≤ 16 := by
            have hd : (getAiMove pick bd mc).1 = 1 ∨
                (getAiMove pick bd mc).1 = 4 ∨
                (getAiMove pick bd mc).1 = 13 ∨
                (getAiMove pick bd mc).1 = 16 := by
              simpa [cornerPositions] using hval
            rcases hd with h | h | h | h <;> omega
          refine ⟨⟨hbounds.1, hbounds.2, hie⟩, ?_, ?_, ?_, ?_⟩
          · intro j hj
            exact absurd hj (by simp)
          · intro hnone j hj
            exact absurd hj (by simp)
          · intro hnone1 hnone2 habs
            exact absurd hcs habs
          · intro hnone1 hnone2 hcsx hksx
            rw [hmove]
            exact hpick _ hks
      · -- tier 3: centers
        have hmove : (getAiMove pick bd mc).1 =
            pick (centerPositions.filter (fun q => decide (bd (q - 1) = none))) := by
          simp only [getAiMove, hO2, hX2]
          rw [hO1, hfO]
          simp only [Option.map_none']
          rw [hX1, hfX]
          simp only [Option.map_none']
          rw [if_pos hcs]
        have hmem := hpick _ hcs
        rw [← hmove] at hmem
        have hmf := List.mem_filter.mp hmem
        have hval : (getAiMove pick bd mc).1 ∈ centerPositions := hmf.1
        have hie : bd ((getAiMove pick bd mc).1 - 1) = none := by
          simpa using hmf.2
        have hbounds : 1 ≤ (getAiMove pick bd mc).1 ∧
            (getAiMove pick bd mc).1 ≤ 16 := by
          have hd : (getAiMove pick bd mc).1 = 6 ∨
              (getAiMove pick bd mc).1 = 7 ∨
              (getAiMove pick bd mc).1 = 10 ∨
              (getAiMove pick bd mc).1 = 11 := by
            simpa [centerPositions] using hval
          rcases hd with h | h | h | h <;> omega
        refine ⟨⟨hbounds.1, hbounds.2, hie⟩, ?_, ?_, ?_, ?_⟩
        · intro j hj
          exact absurd hj (by simp)
        · intro hnone j hj
          exact absurd hj (by simp)
        · intro hnone1 hnone2 hcsne
          rw [hmove]
          exact hpick _ hcs
        · intro hnone1 hnone2 hcsx habs
          exact absurd hcsx hcs

/-- Witness for getAiMove_spec: on the empty board the chosen position is
an empty cell in range. -/
theorem getAiMove_spec_witness :
    1 ≤ (getAiMove pickHead bdEmpty 0).1 ∧
      (getAiMove pickHead bdEmpty 0).1 ≤ 16 ∧
      bdEmpty ((getAiMove pickHead bdEmpty 0).1 - 1) = none :=
  (getAiMove_spec pickHead bdEmpty 0 pickHead_mem (by decide) (by decide)).1

end MatBlack
